import Mathlib

/-!
Verification development for the utility layer of a CMake build-tool front end
(`src/util.ts`): text utilities, value marshalling, truthiness, variable
substitution, path normalization, command-line tokenization and process-tree
termination.  Strings are embedded as `List Char`; JavaScript numbers are
modelled as integers; the host platform is modelled as POSIX-like
(`path.sep = '/'`, `process.platform ≠ 'win32'`), so the win32-only branches
of the source are inactive, exactly as they are on a POSIX host.
-/

namespace VSCMakeUtil

/-- Shorthand: a string literal as a list of characters. -/
def cs (s : String) : List Char := s.toList

/-- The backslash character. -/
def bslashC : Char := Char.ofNat 92

/-- The double-quote character. -/
def dquoteC : Char := Char.ofNat 34

/-- The single-quote character. -/
def squoteC : Char := Char.ofNat 39

/-- The newline character. -/
def newlineC : Char := Char.ofNat 10

/-!
### Text utilities

`replaceAll(str, needle, what)` in the source escapes `needle` with
`escapeStringForRegex` (which escapes every JS regex metacharacter) and then
runs a global regex replace.  The shallow embedding of that composition is a
literal, left-to-right, non-overlapping replace-all.  The JS empty-pattern
behaviour (a `g`-flagged empty regex matches once at every position, including
the very end) is preserved.
-/

/-- Recursion core of `replaceAll`.  The fuel argument only bounds the
recursion depth; every iteration consumes at least one character of the
subject string, so `length + 1` steps always suffice. -/
def replaceAllAux (needle what : List Char) : Nat → List Char → List Char
  | 0, s => s
  | _ + 1, [] => if needle = [] then what else []
  | fuel + 1, c :: rest =>
    if needle ≠ [] ∧ needle.isPrefixOf (c :: rest) then
      what ++ replaceAllAux needle what fuel ((c :: rest).drop needle.length)
    else if needle = [] then
      what ++ c :: replaceAllAux needle what fuel rest
    else
      c :: replaceAllAux needle what fuel rest

/-- Literal global replace: the embedding of `replaceAll` from `util.ts`
(left-to-right, non-overlapping; the JS `g`-flagged empty pattern matches at
every position, including the very end). -/
def replaceAll (needle what s : List Char) : List Char :=
  replaceAllAux needle what (s.length + 1) s

/-- Whether `pat` occurs as a contiguous substring of `s` (the embedding of
`String.prototype.includes` and of a successful regex search). -/
def occursIn (pat : List Char) : List Char → Bool
  | [] => pat.isPrefixOf []
  | c :: rest => pat.isPrefixOf (c :: rest) || occursIn pat rest

/-- The embedding of `removeAllPatterns` from `util.ts`: the left fold of
literal remove-all (replace by the empty string) over the pattern list. -/
def removeAllPatterns (str : List Char) (patterns : List (List Char)) : List Char :=
  patterns.foldl (fun acc needle => replaceAll needle [] acc) str

theorem replaceAllAux_fuel (needle what : List Char) :
    ∀ f₁ f₂ s, s.length < f₁ → s.length < f₂ →
      replaceAllAux needle what f₁ s = replaceAllAux needle what f₂ s := by
  intro f₁
  induction f₁ with
  | zero =>
    intro f₂ s h1
    exact absurd h1 (by omega)
  | succ g ih =>
    intro f₂ s h1 h2
    cases f₂ with
    | zero => exact absurd h2 (by omega)
    | succ g₂ =>
      cases s with
      | nil => rfl
      | cons c rest =>
        simp only [replaceAllAux]
        by_cases hm : needle ≠ [] ∧ needle.isPrefixOf (c :: rest) = true
        · rw [if_pos hm, if_pos hm]
          have hlen : 0 < needle.length := List.length_pos.mpr hm.1
          have hd : ((c :: rest).drop needle.length).length < g := by
            simp only [List.length_drop, List.length_cons]
            simp only [List.length_cons] at h1
            omega
          have hd₂ : ((c :: rest).drop needle.length).length < g₂ := by
            simp only [List.length_drop, List.length_cons]
            simp only [List.length_cons] at h2
            omega
          rw [ih g₂ _ hd hd₂]
        · rw [if_neg hm, if_neg hm]
          have hr : rest.length < g := by
            simp only [List.length_cons] at h1; omega
          have hr₂ : rest.length < g₂ := by
            simp only [List.length_cons] at h2; omega
          by_cases hne : needle = []
          · rw [if_pos hne, if_pos hne, ih g₂ _ hr hr₂]
          · rw [if_neg hne, if_neg hne, ih g₂ _ hr hr₂]

theorem replaceAll_of_not_occurs (needle what : List Char) :
    ∀ s : List Char, needle ≠ [] → occursIn needle s = false →
      replaceAll needle what s = s := by
  have key : ∀ fuel s, s.length < fuel → needle ≠ [] →
      occursIn needle s = false → replaceAllAux needle what fuel s = s := by
    intro fuel
    induction fuel with
    | zero =>
      intro s h
      exact absurd h (by omega)
    | succ g ih =>
      intro s hlen hne hocc
      cases s with
      | nil => simp [replaceAllAux, hne]
      | cons c rest =>
        simp only [occursIn, Bool.or_eq_false_iff] at hocc
        simp only [replaceAllAux]
        rw [if_neg (by simp [hocc.1])]
        rw [if_neg hne]
        have : rest.length < g := by
          simp only [List.length_cons] at hlen; omega
        rw [ih rest this hne hocc.2]
  intro s hne hocc
  exact key (s.length + 1) s (by omega) hne hocc

theorem replaceAll_head (needle what rest : List Char) (hne : needle ≠ []) :
    replaceAll needle what (needle ++ rest) =
      what ++ replaceAll needle what rest := by
  have hlen : 0 < needle.length := List.length_pos.mpr hne
  rw [replaceAll]
  obtain ⟨c, needle', rfl⟩ : ∃ c needle', needle = c :: needle' := by
    cases needle with
    | nil => exact absurd rfl hne
    | cons c n' => exact ⟨c, n', rfl⟩
  rw [List.cons_append, replaceAllAux]
  rw [if_pos ⟨hne, List.isPrefixOf_iff_prefix.mpr (by
        rw [← List.cons_append]; exact List.prefix_append _ _)⟩]
  congr 1
  rw [← List.cons_append, List.drop_left]
  rw [replaceAll]
  apply replaceAllAux_fuel
  · simp only [List.cons_append, List.length_append, List.length_cons]
    omega
  · omega

/-!
### Truthiness evaluator

The embedding of `isTruthy` from `util.ts`.  The TypeScript signature is
`boolean | string | null | undefined | number`; JavaScript numbers are
modelled as integers (so `!!n` becomes `n ≠ 0`).
-/

/-- A value in the domain of `isTruthy`. -/
inductive JSPrim where
  | str (s : List Char)
  | bool (b : Bool)
  | num (n : Int)
  | null
  | undef
deriving DecidableEq

/-- The embedding of `isTruthy` from `util.ts`: a string is falsy exactly when
it is in the fixed denylist (checked with `indexOf`) or ends with `-NOTFOUND`;
other values follow C-style truthiness (`!!value`). -/
def isTruthy : JSPrim → Bool
  | .str s =>
    !(([ cs "", cs "FALSE", cs "OFF", cs "0", cs "NOTFOUND", cs "NO",
         cs "N", cs "IGNORE" ].contains s)
      || (cs "-NOTFOUND").isSuffixOf s)
  | .bool b => b
  | .num n => !(n == 0)
  | .null => false
  | .undef => false

/-!
### Value marshaller

The embedding of `CMakeValue` and `cmakeify` from `util.ts`.  The input type
of `cmakeify` is `string | boolean | number | string[]`, but the function ends
with an `else throw`, so the embedding adds an `other` variant carrying the
JavaScript string rendering of the unsupported value (the `${value}`
interpolation of the thrown message); the result is `Except`, with the thrown
message as the error.
-/

/-- The `type` field of a `CMakeValue`. -/
inductive CMType where
  | UNKNOWN
  | BOOL
  | STRING
deriving DecidableEq

/-- The embedding of the `CMakeValue` interface. -/
structure CMakeValue where
  type : CMType
  value : List Char
deriving DecidableEq

/-- An input to `cmakeify`. -/
inductive CMInput where
  | bool (b : Bool)
  | str (s : List Char)
  | num (n : Int)
  | list (xs : List (List Char))
  | other (rendered : List Char)
deriving DecidableEq

/-- The JS `Array.prototype.join` with a separator: the elements interleaved with the
separator (the empty list joins to the empty string). -/
def joinSep (sep : List Char) : List (List Char) → List Char
  | [] => []
  | [x] => x
  | x :: y :: rest => x ++ sep ++ joinSep sep (y :: rest)

/-- The embedding of `cmakeify` from `util.ts`.  Booleans map to
`BOOL`/`TRUE|FALSE`; strings to `STRING` with semicolons escaped via
`replaceAll(value, chr(59), chr(92) ++ chr(59))`; numbers to `STRING` via
decimal rendering; string lists to `STRING` via `join` with semicolons;
anything else throws. -/
def cmakeify : CMInput → Except (List Char) CMakeValue
  | .bool true => .ok ⟨.BOOL, cs "TRUE"⟩
  | .bool false => .ok ⟨.BOOL, cs "FALSE"⟩
  | .str s => .ok ⟨.STRING, replaceAll [';'] [bslashC, ';'] s⟩
  | .num n => .ok ⟨.STRING, (toString n).toList⟩
  | .list xs => .ok ⟨.STRING, joinSep [';'] xs⟩
  | .other rendered =>
    .error (cs "Invalid value to convert to cmake value: " ++ rendered)

/-- Prepend a character to the first piece of a split result. -/
def consHead (c : Char) : List (List Char) → List (List Char)
  | [] => [[c]]
  | t :: ts => (c :: t) :: ts

/-- Modelled from the spec: the decoder for marshalled list strings is not in
`src/` (only the encoder `cmakeify` is); per the spec it splits a string on
unescaped semicolons, a backslash-semicolon pair standing for a literal
(escaped) semicolon inside an element. -/
def splitUnescaped : List Char → List (List Char)
  | [] => [[]]
  | [c] => if c = ';' then [[], []] else [[c]]
  | c :: d :: rest =>
    if c = bslashC then
      if d = ';' then consHead ';' (splitUnescaped rest)
      else consHead c (splitUnescaped (d :: rest))
    else if c = ';' then
      [] :: splitUnescaped (d :: rest)
    else
      consHead c (splitUnescaped (d :: rest))

theorem splitUnescaped_semi_cons (t : List Char) :
    splitUnescaped (';' :: t) = [] :: splitUnescaped t := by
  cases t with
  | nil => decide
  | cons u t' =>
    simp only [splitUnescaped]
    simp
    intro h
    exact absurd h (by decide)

theorem splitUnescaped_no_semi (x : List Char) (hx : ';' ∉ x) :
    splitUnescaped x = [x] := by
  induction x with
  | nil => rfl
  | cons c rest ih =>
    have hc : c ≠ ';' := fun h => hx (h ▸ List.mem_cons_self c rest)
    have hrest : ';' ∉ rest := fun h => hx (List.mem_cons_of_mem c h)
    have ihr := ih hrest
    cases rest with
    | nil =>
      simp only [splitUnescaped]
      rw [if_neg hc]
    | cons d rest' =>
      have hd : d ≠ ';' := fun h => hrest (h ▸ List.mem_cons_self d rest')
      by_cases hb : c = bslashC
      · simp only [splitUnescaped]
        rw [if_pos hb, if_neg hd, ihr]
        rfl
      · simp only [splitUnescaped]
        rw [if_neg hb, if_neg hc, ihr]
        rfl

theorem splitUnescaped_append (x t : List Char) (hx : ';' ∉ x)
    (hlast : x.getLast? ≠ some bslashC) :
    splitUnescaped (x ++ ';' :: t) = x :: splitUnescaped t := by
  induction x with
  | nil =>
    rw [List.nil_append, splitUnescaped_semi_cons]
  | cons c x' ih =>
    have hc : c ≠ ';' := fun h => hx (h ▸ List.mem_cons_self c x')
    have hx' : ';' ∉ x' := fun h => hx (List.mem_cons_of_mem c h)
    rw [List.cons_append]
    cases x' with
    | nil =>
      have hcb : c ≠ bslashC := by
        intro h
        exact hlast (by simp [h])
      rw [List.nil_append]
      simp only [splitUnescaped]
      rw [if_neg hcb, if_neg hc, splitUnescaped_semi_cons]
      rfl
    | cons d x'' =>
      have hd : d ≠ ';' := fun h => hx' (h ▸ List.mem_cons_self d x'')
      have hlast' : (d :: x'').getLast? ≠ some bslashC := by
        rwa [List.getLast?_cons_cons] at hlast
      have ihr := ih hx' hlast'
      rw [List.cons_append] at ihr
      by_cases hb : c = bslashC
      · simp only [List.cons_append, splitUnescaped, List.append_eq]
        rw [if_pos hb, if_neg hd, ihr]
        rfl
      · simp only [List.cons_append, splitUnescaped, List.append_eq]
        rw [if_neg hb, if_neg hc, ihr]
        rfl

/-!
### Claim theorems for the text utilities, marshaller and truthiness
-/

/-- C10: `replaceAll` and `removeAllPatterns` treat the search pattern as
literal text, never as a regular expression: a needle of regex metacharacters
(here a dot) matches only its literal occurrences; a needle that does not
occur literally leaves the string unchanged; a literal occurrence at the head
is replaced leftmost-first; and `removeAllPatterns` is the left fold of such
literal removals over the patterns in order. -/
theorem replaceAll_literal_spec :
    replaceAll (cs ".") (cs "X") (cs "a.c") = cs "aXc"
    ∧ replaceAll (cs ".") (cs "X") (cs "abc") = cs "abc"
    ∧ (∀ s needle what, needle ≠ [] → occursIn needle s = false →
        replaceAll needle what s = s)
    ∧ (∀ needle what rest, needle ≠ [] →
        replaceAll needle what (needle ++ rest) =
          what ++ replaceAll needle what rest)
    ∧ (∀ str p ps, removeAllPatterns str (p :: ps) =
        removeAllPatterns (replaceAll p [] str) ps)
    ∧ removeAllPatterns (cs "a-b-c") [cs "-b"] = cs "a-c" :=
  ⟨by decide, by decide,
   fun s needle what h1 h2 => replaceAll_of_not_occurs needle what s h1 h2,
   fun needle what rest h => replaceAll_head needle what rest h,
   fun _ _ _ => rfl, by decide⟩

/-- Witness for C10: the hypothesis-bearing conjuncts applied at concrete
inputs. -/
theorem replaceAll_literal_spec_witness :
    replaceAll (cs "z") (cs "w") (cs "abc") = cs "abc"
    ∧ replaceAll (cs "ab") (cs "X") (cs "ab" ++ cs "ab") =
        cs "X" ++ replaceAll (cs "ab") (cs "X") (cs "ab") :=
  ⟨replaceAll_literal_spec.2.2.1 (cs "abc") (cs "z") (cs "w")
      (by decide) (by decide),
   replaceAll_literal_spec.2.2.2.1 (cs "ab") (cs "X") (cs "ab") (by decide)⟩

/-- C5: `isTruthy` on a string is false exactly for the empty string, the
fixed case-sensitive denylist, and strings ending in `-NOTFOUND`; booleans are
themselves; integers are truthy exactly when nonzero; `null` and `undefined`
are falsy; plus the spec's concrete examples. -/
theorem isTruthy_spec :
    (∀ s : List Char, isTruthy (.str s) = false ↔
      (s = cs "" ∨ s = cs "FALSE" ∨ s = cs "OFF" ∨ s = cs "0" ∨
       s = cs "NOTFOUND" ∨ s = cs "NO" ∨ s = cs "N" ∨ s = cs "IGNORE" ∨
       (cs "-NOTFOUND").isSuffixOf s = true))
    ∧ (∀ b, isTruthy (.bool b) = b)
    ∧ (∀ n : Int, isTruthy (.num n) = false ↔ n = 0)
    ∧ isTruthy .null = false ∧ isTruthy .undef = false
    ∧ isTruthy (.str (cs "")) = false ∧ isTruthy (.str (cs "OFF")) = false
    ∧ isTruthy (.str (cs "FOO-NOTFOUND")) = false
    ∧ isTruthy (.str (cs "ON")) = true
    ∧ isTruthy (.num 1) = true ∧ isTruthy (.num 0) = false := by
  refine ⟨?_, fun b => rfl, ?_, rfl, rfl, by decide, by decide, by decide,
    by decide, by decide, by decide⟩
  · intro s
    simp [isTruthy]
    tauto
  · intro n
    simp [isTruthy]

/-- C6: `cmakeify` dispatches by input variant: booleans to `BOOL` with
`TRUE`/`FALSE` (and every `BOOL`-typed result has one of those two texts),
strings to `STRING` with each semicolon literally replaced by
backslash-semicolon, numbers to `STRING` by decimal rendering, and string
lists to `STRING` joined with unescaped semicolons. -/
theorem cmakeify_spec :
    cmakeify (.bool true) = .ok ⟨.BOOL, cs "TRUE"⟩
    ∧ cmakeify (.bool false) = .ok ⟨.BOOL, cs "FALSE"⟩
    ∧ (∀ v r, cmakeify v = .ok r → r.type = .BOOL →
        r.value = cs "TRUE" ∨ r.value = cs "FALSE")
    ∧ (∀ s, cmakeify (.str s) = .ok ⟨.STRING, replaceAll [';'] [bslashC, ';'] s⟩)
    ∧ cmakeify (.str (cs "a;b")) = .ok ⟨.STRING, 'a' :: bslashC :: cs ";b"⟩
    ∧ (∀ n : Int, cmakeify (.num n) = .ok ⟨.STRING, (toString n).toList⟩)
    ∧ (∀ xs, cmakeify (.list xs) = .ok ⟨.STRING, joinSep [';'] xs⟩)
    ∧ cmakeify (.list [cs "a", cs "b"]) = .ok ⟨.STRING, cs "a;b"⟩ := by
  refine ⟨rfl, rfl, ?_, fun s => rfl, rfl, fun n => rfl, fun xs => rfl, rfl⟩
  intro v r h ht
  cases v with
  | bool b =>
    cases b with
    | true =>
      simp only [cmakeify, Except.ok.injEq] at h
      rw [← h]
      exact Or.inl rfl
    | false =>
      simp only [cmakeify, Except.ok.injEq] at h
      rw [← h]
      exact Or.inr rfl
  | str s =>
    simp only [cmakeify, Except.ok.injEq] at h
    rw [← h] at ht
    simp at ht
  | num n =>
    simp only [cmakeify, Except.ok.injEq] at h
    rw [← h] at ht
    simp at ht
  | list xs =>
    simp only [cmakeify, Except.ok.injEq] at h
    rw [← h] at ht
    simp at ht
  | other rendered =>
    exact Except.noConfusion h

/-- Witness for C6: the `BOOL`-invariant conjunct applied at a concrete
input. -/
theorem cmakeify_spec_witness :
    (⟨CMType.BOOL, cs "TRUE"⟩ : CMakeValue).value = cs "TRUE" ∨
      (⟨CMType.BOOL, cs "TRUE"⟩ : CMakeValue).value = cs "FALSE" :=
  cmakeify_spec.2.2.1 (.bool true) ⟨.BOOL, cs "TRUE"⟩ rfl rfl

/-- C8: `cmakeify` succeeds on every supported input variant (boolean,
string, number, list of strings) and fails on any other variant with an
error whose message names the offending value. -/
theorem cmakeify_error_spec :
    (∀ b, ∃ r, cmakeify (.bool b) = .ok r)
    ∧ (∀ s, ∃ r, cmakeify (.str s) = .ok r)
    ∧ (∀ n : Int, ∃ r, cmakeify (.num n) = .ok r)
    ∧ (∀ xs, ∃ r, cmakeify (.list xs) = .ok r)
    ∧ (∀ rendered, cmakeify (.other rendered) =
        .error (cs "Invalid value to convert to cmake value: " ++ rendered)) :=
  ⟨fun b => by cases b <;> exact ⟨_, rfl⟩, fun _ => ⟨_, rfl⟩, fun _ => ⟨_, rfl⟩,
   fun _ => ⟨_, rfl⟩, fun _ => rfl⟩

/-- C2 (counterexample): for the empty list the claim fails.  Marshalling
`[]` yields the empty text, and splitting the empty text on unescaped
semicolons yields `[""]`, not `[]`. -/
theorem cmakeify_empty_list_no_roundtrip :
    cmakeify (.list []) = .ok ⟨.STRING, []⟩
    ∧ splitUnescaped [] = [[]]
    ∧ ([[]] : List (List Char)) ≠ ([] : List (List Char)) :=
  ⟨rfl, rfl, by simp⟩

theorem splitUnescaped_joinSep (x : List Char) (L : List (List Char))
    (hx : ';' ∉ x ∧ x.getLast? ≠ some bslashC)
    (hL : ∀ s ∈ L, ';' ∉ s ∧ s.getLast? ≠ some bslashC) :
    splitUnescaped (joinSep [';'] (x :: L)) = x :: L := by
  induction L generalizing x with
  | nil =>
    rw [show joinSep [';'] [x] = x from rfl]
    exact splitUnescaped_no_semi x hx.1
  | cons y L' ih =>
    rw [show joinSep [';'] (x :: y :: L') = x ++ [';'] ++ joinSep [';'] (y :: L')
      from rfl]
    rw [List.append_assoc, List.singleton_append]
    rw [splitUnescaped_append x _ hx.1 hx.2]
    rw [ih y (hL y (List.mem_cons_self y L')) (fun s hs =>
      hL s (List.mem_cons_of_mem y hs))]

/-- C2 (amended): for every nonempty list of strings `L` in which no element
contains a semicolon and no element ends with a backslash, splitting
`marshal(L).text` on unescaped semicolons reconstructs `L` exactly.  (For the
empty list the decode yields `[""]`, not `[]` — see the counterexample — and
an element ending in a backslash would make the joining semicolon after it
look escaped.) -/
theorem cmakeify_list_roundtrip (L : List (List Char)) (hne : L ≠ [])
    (hL : ∀ s ∈ L, ';' ∉ s ∧ s.getLast? ≠ some bslashC) :
    ∃ text, cmakeify (.list L) = .ok ⟨.STRING, text⟩
      ∧ splitUnescaped text = L := by
  refine ⟨joinSep [';'] L, rfl, ?_⟩
  cases L with
  | nil => exact absurd rfl hne
  | cons x L' =>
    exact splitUnescaped_joinSep x L'
      (hL x (List.mem_cons_self x L'))
      (fun s hs => hL s (List.mem_cons_of_mem x hs))

/-- Witness for C2: the amended round-trip applied at a concrete two-element
list. -/
theorem cmakeify_list_roundtrip_witness :
    ∃ text, cmakeify (.list [cs "a", cs "b"]) = .ok ⟨.STRING, text⟩
      ∧ splitUnescaped text = [cs "a", cs "b"] :=
  cmakeify_list_roundtrip [cs "a", cs "b"] (by decide) (by decide)

/-!
### Variable substitutor

The embedding of `replaceVars` from `util.ts`.  The ambient state it reads
(`vscode.workspace.rootPath`, `config.toolset`) is made an explicit context
record; `x || dflt` is JavaScript or-else (the empty string is falsy).
`path.basename` is the POSIX basename: trailing slashes dropped, then the last
slash-separated component.
-/

/-- The ambient workspace state read by `replaceVars`. -/
structure VarContext where
  rootPath : Option (List Char)
  toolset : Option (List Char)

/-- JavaScript `x || dflt` on an optional string: `undefined` and the empty
string both fall back to the default. -/
def jsOr : Option (List Char) → List Char → List Char
  | none, dflt => dflt
  | some s, dflt => if s = [] then dflt else s

/-- POSIX `path.basename`: drop trailing slashes, then keep the last
slash-free component. -/
def basenameL (p : List Char) : List Char :=
  ((p.reverse.dropWhile (fun c => c = '/')).takeWhile (fun c => c ≠ '/')).reverse

/-- The embedding of `replaceVars` from `util.ts`: a `reduce` of literal
`replaceAll` over the fixed placeholder table in insertion order
(`workspaceRoot` first, then `workspaceRootFolderName`, then `toolset`). -/
def replaceVars (ctx : VarContext) (str : List Char) : List Char :=
  replaceAll (cs "${toolset}") (jsOr ctx.toolset (cs "unknown"))
    (replaceAll (cs "${workspaceRootFolderName}")
      (basenameL (jsOr ctx.rootPath (cs ".")))
      (replaceAll (cs "${workspaceRoot}") (jsOr ctx.rootPath (cs ".")) str))

/-- C4 (counterexample): `replaceVars` is a sequential fold, not a single
simultaneous pass.  With workspace root set to the literal text
`${toolset}` and toolset `gcc`, the template `${workspaceRoot}` becomes
`gcc`: the replacement value inserted by the first pass is re-substituted by
the later `${toolset}` pass, whereas a single-pass substitution would have
produced the literal `${toolset}`. -/
theorem replaceVars_not_single_pass :
    replaceVars ⟨some (cs "${toolset}"), some (cs "gcc")⟩
        (cs "${workspaceRoot}") = cs "gcc"
    ∧ cs "gcc" ≠ cs "${toolset}" :=
  ⟨by decide, by decide⟩

/-- C4 (amended): `replaceVars` replaces every literal occurrence of each of
the three recognized placeholders with its context value or documented
default (`.` for the workspace root, its basename for the folder name,
`unknown` for the toolset), leaves unrecognized placeholders verbatim, and
applies the replacements as a left fold in the fixed order `workspaceRoot`,
`workspaceRootFolderName`, `toolset` — so a replacement value containing a
later-ordered placeholder token is itself re-substituted (it is not a
simultaneous single pass; see the counterexample). -/
theorem replaceVars_amended :
    (∀ root, replaceVars ⟨root, some (cs "gcc")⟩ (cs "${toolset}-build") =
        cs "gcc-build")
    ∧ (∀ root, replaceVars ⟨root, some (cs "gcc")⟩
        (cs "${toolset}-build-${toolset}") = cs "gcc-build-gcc")
    ∧ (∀ ctx, replaceVars ctx (cs "${cfg}") = cs "${cfg}")
    ∧ replaceVars ⟨none, none⟩ (cs "${toolset}") = cs "unknown"
    ∧ replaceVars ⟨none, none⟩ (cs "${workspaceRoot}") = cs "."
    ∧ replaceVars ⟨none, none⟩ (cs "${workspaceRootFolderName}") = cs "." := by
  refine ⟨?_, ?_, ?_, by decide, by decide, by decide⟩
  · intro root
    simp only [replaceVars]
    rw [replaceAll_of_not_occurs (cs "${workspaceRoot}") _
      (cs "${toolset}-build") (by decide) (by decide)]
    rw [replaceAll_of_not_occurs (cs "${workspaceRootFolderName}") _
      (cs "${toolset}-build") (by decide) (by decide)]
    decide
  · intro root
    simp only [replaceVars]
    rw [replaceAll_of_not_occurs (cs "${workspaceRoot}") _
      (cs "${toolset}-build-${toolset}") (by decide) (by decide)]
    rw [replaceAll_of_not_occurs (cs "${workspaceRootFolderName}") _
      (cs "${toolset}-build-${toolset}") (by decide) (by decide)]
    decide
  · intro ctx
    simp only [replaceVars]
    rw [replaceAll_of_not_occurs (cs "${workspaceRoot}") _
      (cs "${cfg}") (by decide) (by decide)]
    rw [replaceAll_of_not_occurs (cs "${workspaceRootFolderName}") _
      (cs "${cfg}") (by decide) (by decide)]
    rw [replaceAll_of_not_occurs (cs "${toolset}") _
      (cs "${cfg}") (by decide) (by decide)]

/-!
### Path normalizer

The embedding of `normalizePath` from `util.ts` on a POSIX host:
`path.normalize` is Node's `path.posix.normalize` (segment resolution of `.`,
`..` and empty segments), the `path.sep` conversion loop is a no-op (the host
separator already is `/`), the win32 case-folding branch is inactive, then one
trailing slash is stripped with `replace(rgxSlashEnd, empty)` (whose dollar
anchor, without the multiline flag, also matches just before a final
newline), and finally `//` runs are collapsed with a `while includes`
loop of `replaceAll`.
-/

/-- Split a string at every `/` (`[""]` for the empty string). -/
def splitSlash : List Char → List (List Char)
  | [] => [[]]
  | c :: rest =>
    match splitSlash rest with
    | [] => if c = '/' then [[], []] else [[c]]
    | s :: ss => if c = '/' then [] :: s :: ss else (c :: s) :: ss

/-- The `..` segment. -/
def ddSeg : List Char := ['.', '.']

/-- One step of Node's `normalizeString` segment resolution: empty and `.`
segments vanish; `..` pops the last kept segment, or is kept itself above the
root of a relative path, or vanishes at the root of an absolute path; other
segments are kept. -/
def resolveStep (allowAbove : Bool) (res : List (List Char))
    (seg : List Char) : List (List Char) :=
  if seg = [] ∨ seg = ['.'] then res
  else if seg = ddSeg then
    if res ≠ [] ∧ res.getLast? ≠ some ddSeg then res.dropLast
    else if allowAbove then res ++ [seg]
    else res
  else res ++ [seg]

/-- Node's `normalizeString`: fold the resolution step over the segments. -/
def resolveSegs (allowAbove : Bool) (segs : List (List Char)) :
    List (List Char) :=
  segs.foldl (resolveStep allowAbove) []

/-- Node's `path.posix.normalize`. -/
def posixNormalize (p : List Char) : List Char :=
  if p = [] then cs "."
  else
    let isAbs : Bool := p.head? == some '/'
    let trail : Bool := p.getLast? == some '/'
    let r := joinSep ['/'] (resolveSegs (!isAbs) (splitSlash p))
    if r = [] then
      if isAbs then ['/'] else if trail then cs "./" else cs "."
    else
      (if isAbs then '/' :: r else r) ++ (if trail then ['/'] else [])

/-- The step `norm.replace(rgxSlashEnd, empty)`: remove one trailing slash.
The ECMAScript dollar anchor without the multiline flag matches only at the
very end of the input (unlike Perl or Python, it does not match before a
final newline), so only a slash that is the last character is removed. -/
def stripTrailingSlash (s : List Char) : List Char :=
  if s.getLast? = some '/' then s.dropLast else s

/-- Recursion core of the `while includes` collapse loop; every pass on a
string containing a double slash strictly shortens it, so `length` passes
suffice. -/
def collapseAux : Nat → List Char → List Char
  | 0, s => s
  | fuel + 1, s =>
    if occursIn (cs "//") s then collapseAux fuel (replaceAll (cs "//") (cs "/") s)
    else s

/-- The `while (norm.includes(slashes)) norm = replaceAll(norm, slashes, slash)`
loop from `normalizePath`. -/
def collapseSlashes (s : List Char) : List Char := collapseAux s.length s

/-- The embedding of `normalizePath` from `util.ts` on a POSIX host.  The
`normalize_case` flag is kept from the source signature; its branch is gated
on win32 and is inactive on the modelled host. -/
def normalizePath (p : List Char) (_normalize_case : Bool := true) : List Char :=
  collapseSlashes (stripTrailingSlash (posixNormalize p))

theorem splitSlash_ne_nil (p : List Char) : splitSlash p ≠ [] := by
  cases p with
  | nil => simp [splitSlash]
  | cons c rest =>
    simp only [splitSlash]
    match splitSlash rest with
    | [] =>
      by_cases h : c = '/' <;> simp [h]
    | s :: ss =>
      by_cases h : c = '/' <;> simp [h]

theorem splitSlash_no_slash (p : List Char) :
    ∀ s ∈ splitSlash p, '/' ∉ s := by
  induction p with
  | nil =>
    intro s hs
    simp [splitSlash] at hs
    simp [hs]
  | cons c rest ih =>
    intro s hs
    rcases hsp : splitSlash rest with _ | ⟨s₀, ss⟩
    · exact absurd hsp (splitSlash_ne_nil rest)
    by_cases h : c = '/'
    · subst h
      simp only [splitSlash, hsp] at hs
      simp at hs
      rcases hs with rfl | heq | hs
      · simp
      · subst heq
        exact ih _ (hsp ▸ List.mem_cons_self _ _)
      · exact ih s (hsp ▸ List.mem_cons_of_mem _ hs)
    · simp only [splitSlash, hsp] at hs
      rw [if_neg h] at hs
      rcases List.mem_cons.mp hs with rfl | hs
      · intro hmem
        rcases List.mem_cons.mp hmem with heq | hmem
        · exact h heq.symm
        · exact ih s₀ (hsp ▸ List.mem_cons_self s₀ ss) hmem
      · exact ih s (hsp ▸ List.mem_cons_of_mem s₀ hs)

theorem splitSlash_single (x : List Char) (hx : '/' ∉ x) :
    splitSlash x = [x] := by
  induction x with
  | nil => rfl
  | cons c rest ih =>
    have hc : c ≠ '/' := fun h => hx (h ▸ List.mem_cons_self c rest)
    have hrest : '/' ∉ rest := fun h => hx (List.mem_cons_of_mem c h)
    simp only [splitSlash, ih hrest]
    rw [if_neg hc]

theorem splitSlash_append (x t : List Char) (hx : '/' ∉ x) :
    splitSlash (x ++ '/' :: t) = x :: splitSlash t := by
  induction x with
  | nil =>
    rw [List.nil_append]
    rcases hsp : splitSlash t with _ | ⟨s₀, ss⟩
    · exact absurd hsp (splitSlash_ne_nil t)
    · simp [splitSlash, hsp]
  | cons c x' ih =>
    have hc : c ≠ '/' := fun h => hx (h ▸ List.mem_cons_self c x')
    have hx' : '/' ∉ x' := fun h => hx (List.mem_cons_of_mem c h)
    rw [List.cons_append]
    simp only [splitSlash, ih hx']
    rw [if_neg hc]

theorem joinSep_ne_nil (segs : List (List Char)) (h1 : segs ≠ [])
    (h2 : ∀ s ∈ segs, s ≠ []) : joinSep ['/'] segs ≠ [] := by
  match segs with
  | [] => exact absurd rfl h1
  | [x] => exact h2 x (List.mem_cons_self x [])
  | x :: y :: rest =>
    rw [show joinSep ['/'] (x :: y :: rest) =
      x ++ ['/'] ++ joinSep ['/'] (y :: rest) from rfl]
    simp

theorem joinSep_head? (x : List Char) (segs : List (List Char)) (hx : x ≠ []) :
    (joinSep ['/'] (x :: segs)).head? = x.head? := by
  match segs with
  | [] => rfl
  | y :: rest =>
    rw [show joinSep ['/'] (x :: y :: rest) =
      x ++ ['/'] ++ joinSep ['/'] (y :: rest) from rfl]
    rw [List.append_assoc, List.head?_append_of_ne_nil _ hx]

theorem joinSep_getLast?_mem (segs : List (List Char)) (h1 : segs ≠ [])
    (h2 : ∀ s ∈ segs, s ≠ []) :
    ∃ z ∈ segs, (joinSep ['/'] segs).getLast? = z.getLast? := by
  match segs with
  | [] => exact absurd rfl h1
  | [x] => exact ⟨x, List.mem_cons_self x [], rfl⟩
  | x :: y :: rest =>
    obtain ⟨z, hz, hzl⟩ := joinSep_getLast?_mem (y :: rest) (by simp)
      (fun s hs => h2 s (List.mem_cons_of_mem x hs))
    refine ⟨z, List.mem_cons_of_mem x hz, ?_⟩
    rw [show joinSep ['/'] (x :: y :: rest) =
      x ++ ['/'] ++ joinSep ['/'] (y :: rest) from rfl]
    rw [List.getLast?_append_of_ne_nil _ (joinSep_ne_nil (y :: rest) (by simp)
      (fun s hs => h2 s (List.mem_cons_of_mem x hs))), hzl]

theorem occursIn_ds_of_no_slash (x : List Char) (hx : '/' ∉ x) :
    occursIn (cs "//") x = false := by
  induction x with
  | nil => rfl
  | cons c rest ih =>
    have hc : c ≠ '/' := fun h => hx (h ▸ List.mem_cons_self c rest)
    have hrest : '/' ∉ rest := fun h => hx (List.mem_cons_of_mem c h)
    simp only [occursIn, Bool.or_eq_false_iff]
    refine ⟨?_, ih hrest⟩
    show (List.isPrefixOf (cs "//") (c :: rest)) = false
    simp [cs, List.isPrefixOf]
    intro h
    exact absurd h.symm hc

theorem occursIn_ds_slash_cons (y : List Char) (hy : y.head? ≠ some '/')
    (hocc : occursIn (cs "//") y = false) :
    occursIn (cs "//") ('/' :: y) = false := by
  simp only [occursIn, Bool.or_eq_false_iff]
  refine ⟨?_, hocc⟩
  show (List.isPrefixOf (cs "//") ('/' :: y)) = false
  cases y with
  | nil => rfl
  | cons d y' =>
    have hd : d ≠ '/' := fun h => hy (by simp [h])
    simp [cs, List.isPrefixOf]
    intro h
    exact absurd h.symm hd

theorem occursIn_ds_append (x y : List Char) (hx : '/' ∉ x)
    (hy : y.head? ≠ some '/') (hocc : occursIn (cs "//") y = false) :
    occursIn (cs "//") (x ++ '/' :: y) = false := by
  induction x with
  | nil =>
    rw [List.nil_append]
    exact occursIn_ds_slash_cons y hy hocc
  | cons c x' ih =>
    have hc : c ≠ '/' := fun h => hx (h ▸ List.mem_cons_self c x')
    have hx' : '/' ∉ x' := fun h => hx (List.mem_cons_of_mem c h)
    rw [List.cons_append]
    simp only [occursIn, Bool.or_eq_false_iff]
    refine ⟨?_, ih hx'⟩
    show (List.isPrefixOf (cs "//") (c :: (x' ++ '/' :: y))) = false
    simp [cs, List.isPrefixOf]
    intro h
    exact absurd h.symm hc

theorem joinSep_no_ds (segs : List (List Char))
    (h : ∀ s ∈ segs, s ≠ [] ∧ '/' ∉ s) :
    occursIn (cs "//") (joinSep ['/'] segs) = false := by
  match segs with
  | [] => rfl
  | [x] => exact occursIn_ds_of_no_slash x (h x (List.mem_cons_self x [])).2
  | x :: y :: rest =>
    rw [show joinSep ['/'] (x :: y :: rest) =
      x ++ ['/'] ++ joinSep ['/'] (y :: rest) from rfl]
    rw [List.append_assoc, List.singleton_append]
    have hy : (joinSep ['/'] (y :: rest)).head? = y.head? :=
      joinSep_head? y rest (h y (by simp)).1
    refine occursIn_ds_append _ _ (h x (by simp)).2 ?_
      (joinSep_no_ds (y :: rest) (fun s hs => h s (List.mem_cons_of_mem x hs)))
    rw [hy]
    intro hcon
    have hyne : y ≠ [] := (h y (by simp)).1
    rcases y with _ | ⟨d, y'⟩
    · exact hyne rfl
    · simp only [List.head?] at hcon
      have : d = '/' := by injection hcon
      exact (h (d :: y') (by simp)).2 (this ▸ List.mem_cons_self d y')

theorem collapseSlashes_no_op (s : List Char)
    (h : occursIn (cs "//") s = false) : collapseSlashes s = s := by
  rw [collapseSlashes]
  cases hl : s.length with
  | zero => rfl
  | succ n =>
    simp only [collapseAux]
    rw [if_neg (by simp [h])]

theorem stripTrailingSlash_concat (l : List Char) :
    stripTrailingSlash (l ++ ['/']) = l := by
  rw [stripTrailingSlash, if_pos (List.getLast?_concat l), List.dropLast_concat]

theorem stripTrailingSlash_no_op (s : List Char)
    (h1 : s.getLast? ≠ some '/') :
    stripTrailingSlash s = s := by
  rw [stripTrailingSlash, if_neg h1]

/-- A segment kept by the resolution: nonempty, not `.`, slash-free. -/
def GoodSeg (s : List Char) : Prop := s ≠ [] ∧ s ≠ ['.'] ∧ '/' ∉ s

/-- All `..` segments form a prefix of the list. -/
def DDPrefix (res : List (List Char)) : Prop :=
  ∃ k rest, res = List.replicate k ddSeg ++ rest ∧ ddSeg ∉ rest

/-- The `..`-placement invariant of the resolution output: above-root `..`
segments are allowed (as a prefix) only for relative paths. -/
def DDInv : Bool → List (List Char) → Prop
  | true, res => DDPrefix res
  | false, res => ddSeg ∉ res

/-- Invariant of Node's segment resolution output. -/
def ResolvedInv (a : Bool) (res : List (List Char)) : Prop :=
  (∀ s ∈ res, GoodSeg s) ∧ DDInv a res

theorem resolveStep_inv (a : Bool) (res : List (List Char)) (seg : List Char)
    (hs : '/' ∉ seg) (h : ResolvedInv a res) :
    ResolvedInv a (resolveStep a res seg) := by
  rw [resolveStep]
  by_cases h1 : seg = [] ∨ seg = ['.']
  · rw [if_pos h1]; exact h
  rw [if_neg h1]
  push_neg at h1
  by_cases h2 : seg = ddSeg
  · rw [if_pos h2]
    by_cases h3 : res ≠ [] ∧ res.getLast? ≠ some ddSeg
    · rw [if_pos h3]
      refine ⟨fun s hs' => h.1 s (List.dropLast_subset res hs'), ?_⟩
      cases a with
      | true =>
        obtain ⟨k, rest, hres, hdd⟩ := h.2
        have hrest : rest ≠ [] := by
          intro hr
          subst hr
          rw [List.append_nil] at hres
          subst hres
          rcases Nat.eq_zero_or_pos k with hk | hk
          · subst hk
            exact h3.1 rfl
          · refine h3.2 ?_
            rw [List.getLast?_replicate]
            rw [if_neg (by omega)]
        show DDPrefix res.dropLast
        subst hres
        rw [List.dropLast_append_of_ne_nil _ hrest]
        exact ⟨k, rest.dropLast, rfl,
          fun hm => hdd (List.dropLast_subset _ hm)⟩
      | false =>
        intro hm
        exact h.2 (List.dropLast_subset _ hm)
    · rw [if_neg h3]
      have h4 : res = [] ∨ res.getLast? = some ddSeg := by tauto
      cases a with
      | true =>
        rw [if_pos rfl]
        subst h2
        obtain ⟨k, rest, hres, hdd⟩ := h.2
        have hrest : rest = [] := by
          rcases h4 with h4 | h4
          · rw [h4] at hres
            exact (List.append_eq_nil.mp hres.symm).2
          · by_contra hne
            rw [hres, List.getLast?_append_of_ne_nil _ hne] at h4
            exact hdd (List.mem_of_mem_getLast? h4)
        subst hrest
        rw [List.append_nil] at hres
        subst hres
        constructor
        · intro s hs'
          rcases List.mem_append.mp hs' with hs' | hs'
          · exact h.1 s hs'
          · rcases List.mem_singleton.mp hs' with rfl
            exact ⟨by decide, by decide, by decide⟩
        · exact ⟨k + 1, [], by rw [List.append_nil, List.replicate_succ'], by simp⟩
      | false =>
        rw [if_neg (by simp)]
        exact h
  · rw [if_neg h2]
    constructor
    · intro s hs'
      rcases List.mem_append.mp hs' with hs' | hs'
      · exact h.1 s hs'
      · rcases List.mem_singleton.mp hs' with rfl
        exact ⟨h1.1, h1.2, hs⟩
    · cases a with
      | true =>
        obtain ⟨k, rest, hres, hdd⟩ := h.2
        refine ⟨k, rest ++ [seg], by rw [hres, List.append_assoc], ?_⟩
        intro hm
        rcases List.mem_append.mp hm with hm | hm
        · exact hdd hm
        · exact h2 (List.mem_singleton.mp hm).symm
      | false =>
        intro hm
        rcases List.mem_append.mp hm with hm | hm
        · exact h.2 hm
        · exact h2 (List.mem_singleton.mp hm).symm

theorem resolveFold_inv (a : Bool) (segs : List (List Char)) :
    ∀ acc, (∀ s ∈ segs, '/' ∉ s) → ResolvedInv a acc →
      ResolvedInv a (List.foldl (resolveStep a) acc segs) := by
  induction segs with
  | nil =>
    intro acc _ h
    exact h
  | cons seg segs' ih =>
    intro acc hss h
    rw [List.foldl_cons]
    exact ih _ (fun s hs => hss s (List.mem_cons_of_mem _ hs))
      (resolveStep_inv a acc seg (hss seg (List.mem_cons_self _ _)) h)

theorem resolveSegs_inv (a : Bool) (segs : List (List Char))
    (hss : ∀ s ∈ segs, '/' ∉ s) : ResolvedInv a (resolveSegs a segs) := by
  apply resolveFold_inv a segs [] hss
  constructor
  · intro s hs
    exact absurd hs (List.not_mem_nil s)
  · cases a with
    | true => exact ⟨0, [], rfl, List.not_mem_nil _⟩
    | false => exact List.not_mem_nil _

theorem foldl_resolve_all_plain (a : Bool) (segs : List (List Char))
    (h : ∀ s ∈ segs, GoodSeg s ∧ s ≠ ddSeg) :
    ∀ acc, List.foldl (resolveStep a) acc segs = acc ++ segs := by
  induction segs with
  | nil =>
    intro acc
    simp
  | cons seg segs' ih =>
    intro acc
    rw [List.foldl_cons]
    have hg := h seg (List.mem_cons_self _ _)
    have hstep : resolveStep a acc seg = acc ++ [seg] := by
      rw [resolveStep]
      rw [if_neg (by
        rintro (hh | hh)
        · exact hg.1.1 hh
        · exact hg.1.2.1 hh)]
      rw [if_neg hg.2]
    rw [hstep, ih (fun s hs => h s (List.mem_cons_of_mem _ hs))]
    rw [List.append_assoc, List.singleton_append]

theorem foldl_resolve_dds (rest : List (List Char))
    (hrest : ∀ s ∈ rest, GoodSeg s ∧ s ≠ ddSeg) :
    ∀ k j, List.foldl (resolveStep true) (List.replicate j ddSeg)
        (List.replicate k ddSeg ++ rest) =
      List.replicate (j + k) ddSeg ++ rest := by
  intro k
  induction k with
  | zero =>
    intro j
    rw [List.replicate_zero, List.nil_append, Nat.add_zero]
    exact foldl_resolve_all_plain true rest hrest _
  | succ k' ih =>
    intro j
    rw [List.replicate_succ, List.cons_append, List.foldl_cons]
    have hstep : resolveStep true (List.replicate j ddSeg) ddSeg =
        List.replicate (j + 1) ddSeg := by
      rw [resolveStep]
      rw [if_neg (by decide)]
      rw [if_pos rfl]
      rw [if_neg (by
        cases j with
        | zero => simp
        | succ j' =>
          rintro ⟨_, hlast⟩
          refine hlast ?_
          rw [List.getLast?_replicate]
          rw [if_neg (by omega)])]
      rw [if_pos rfl, ← List.replicate_succ']
    rw [hstep, ih (j + 1)]
    congr 1
    congr 1
    omega

theorem resolve_fixpoint (a : Bool) (res : List (List Char))
    (h : ResolvedInv a res) : resolveSegs a res = res := by
  cases a with
  | false =>
    rw [resolveSegs]
    rw [foldl_resolve_all_plain false res
      (fun s hs => ⟨h.1 s hs, fun hdd => h.2 (hdd ▸ hs)⟩) []]
    rw [List.nil_append]
  | true =>
    obtain ⟨k, rest, hres, hdd⟩ := h.2
    have hrest : ∀ s ∈ rest, GoodSeg s ∧ s ≠ ddSeg := by
      intro s hs
      refine ⟨h.1 s (hres ▸ List.mem_append_right _ hs), ?_⟩
      intro hddeq
      exact hdd (hddeq ▸ hs)
    rw [resolveSegs, hres, show List.foldl (resolveStep true) [] =
      List.foldl (resolveStep true) (List.replicate 0 ddSeg) from rfl]
    rw [foldl_resolve_dds rest hrest k 0, Nat.zero_add]

theorem splitSlash_joinSep (segs : List (List Char)) (h1 : segs ≠ [])
    (h2 : ∀ s ∈ segs, '/' ∉ s) :
    splitSlash (joinSep ['/'] segs) = segs := by
  match segs with
  | [] => exact absurd rfl h1
  | [x] => exact splitSlash_single x (h2 x (List.mem_cons_self x []))
  | x :: y :: rest =>
    rw [show joinSep ['/'] (x :: y :: rest) =
      x ++ ['/'] ++ joinSep ['/'] (y :: rest) from rfl]
    rw [List.append_assoc, List.singleton_append]
    rw [splitSlash_append x _ (h2 x (List.mem_cons_self _ _))]
    rw [splitSlash_joinSep (y :: rest) (by simp)
      (fun s hs => h2 s (List.mem_cons_of_mem x hs))]

theorem joinSep_head?_ne_slash (segs : List (List Char))
    (hsne : segs ≠ []) (hgood : ∀ s ∈ segs, s ≠ [] ∧ '/' ∉ s) :
    (joinSep ['/'] segs).head? ≠ some '/' := by
  match segs with
  | [] => exact absurd rfl hsne
  | x :: segs' =>
    rw [joinSep_head? x segs' (hgood x (List.mem_cons_self _ _)).1]
    rcases x with _ | ⟨cx, x'⟩
    · exact absurd rfl (hgood [] (List.mem_cons_self _ _)).1
    · intro hcon
      have : cx = '/' := by injection hcon
      exact (hgood (cx :: x') (List.mem_cons_self _ _)).2
        (this ▸ List.mem_cons_self cx x')

theorem joinSep_getLast?_ne (segs : List (List Char)) (ch : Char)
    (hsne : segs ≠ []) (hgood : ∀ s ∈ segs, s ≠ [] ∧ ch ∉ s) :
    (joinSep ['/'] segs).getLast? ≠ some ch := by
  obtain ⟨z, hz, hzl⟩ := joinSep_getLast?_mem segs hsne
    (fun s hs => (hgood s hs).1)
  rw [hzl]
  intro hcon
  exact (hgood z hz).2 (List.mem_of_mem_getLast? hcon)

theorem posixNormalize_fixed_rel (segs : List (List Char))
    (hgood : ∀ s ∈ segs, GoodSeg s) (hsne : segs ≠ [])
    (hdd : DDInv true segs) :
    posixNormalize (joinSep ['/'] segs) = joinSep ['/'] segs := by
  have hne_segs : ∀ s ∈ segs, s ≠ [] := fun s hs => (hgood s hs).1
  have hnos : ∀ s ∈ segs, '/' ∉ s := fun s hs => (hgood s hs).2.2
  have hrne : joinSep ['/'] segs ≠ [] := joinSep_ne_nil segs hsne hne_segs
  have habs : ((joinSep ['/'] segs).head? == some '/') = false := by
    rw [beq_eq_false_iff_ne]
    exact joinSep_head?_ne_slash segs hsne (fun s hs => ⟨hne_segs s hs, hnos s hs⟩)
  have htr : ((joinSep ['/'] segs).getLast? == some '/') = false := by
    rw [beq_eq_false_iff_ne]
    exact joinSep_getLast?_ne segs '/' hsne
      (fun s hs => ⟨hne_segs s hs, hnos s hs⟩)
  unfold posixNormalize
  rw [if_neg hrne]
  rw [habs, htr]
  dsimp only
  rw [splitSlash_joinSep segs hsne hnos]
  simp only [Bool.not_false]
  rw [resolve_fixpoint true segs ⟨hgood, hdd⟩]
  rw [if_neg hrne]
  simp

theorem posixNormalize_fixed_abs (segs : List (List Char))
    (hgood : ∀ s ∈ segs, GoodSeg s) (hsne : segs ≠ [])
    (hdd : DDInv false segs) :
    posixNormalize ('/' :: joinSep ['/'] segs) = '/' :: joinSep ['/'] segs := by
  have hne_segs : ∀ s ∈ segs, s ≠ [] := fun s hs => (hgood s hs).1
  have hnos : ∀ s ∈ segs, '/' ∉ s := fun s hs => (hgood s hs).2.2
  have hrne : joinSep ['/'] segs ≠ [] := joinSep_ne_nil segs hsne hne_segs
  have habs : (('/' :: joinSep ['/'] segs).head? == some '/') = true := by
    simp
  have htr : (('/' :: joinSep ['/'] segs).getLast? == some '/') = false := by
    rw [show ('/' :: joinSep ['/'] segs) = ['/'] ++ joinSep ['/'] segs from rfl]
    rw [List.getLast?_append_of_ne_nil _ hrne]
    rw [beq_eq_false_iff_ne]
    exact joinSep_getLast?_ne segs '/' hsne
      (fun s hs => ⟨hne_segs s hs, hnos s hs⟩)
  have hsplit : splitSlash ('/' :: joinSep ['/'] segs) =
      [] :: splitSlash (joinSep ['/'] segs) := by
    have h0 := splitSlash_append [] (joinSep ['/'] segs) (by simp)
    rwa [List.nil_append] at h0
  have hres : resolveSegs false ([] :: segs) = segs := by
    rw [resolveSegs, List.foldl_cons]
    rw [show resolveStep false [] [] = [] from by
      rw [resolveStep, if_pos (Or.inl rfl)]]
    exact resolve_fixpoint false segs ⟨hgood, hdd⟩
  unfold posixNormalize
  rw [if_neg (by simp)]
  rw [habs, htr]
  dsimp only
  rw [hsplit, splitSlash_joinSep segs hsne hnos]
  simp only [Bool.not_true]
  rw [hres]
  rw [if_neg hrne]
  simp

theorem normalizePath_fixed_rel (segs : List (List Char)) (c : Bool)
    (hgood : ∀ s ∈ segs, GoodSeg s) (hsne : segs ≠ [])
    (hdd : DDInv true segs) :
    normalizePath (joinSep ['/'] segs) c = joinSep ['/'] segs := by
  have hne_segs : ∀ s ∈ segs, s ≠ [] := fun s hs => (hgood s hs).1
  have hnos : ∀ s ∈ segs, '/' ∉ s := fun s hs => (hgood s hs).2.2
  rw [show normalizePath (joinSep ['/'] segs) c =
    collapseSlashes (stripTrailingSlash (posixNormalize (joinSep ['/'] segs)))
    from rfl]
  rw [posixNormalize_fixed_rel segs hgood hsne hdd]
  rw [stripTrailingSlash_no_op _
    (joinSep_getLast?_ne segs '/' hsne
      (fun s hs => ⟨hne_segs s hs, hnos s hs⟩))]
  exact collapseSlashes_no_op _
    (joinSep_no_ds segs (fun s hs => ⟨hne_segs s hs, hnos s hs⟩))

theorem normalizePath_fixed_abs (segs : List (List Char)) (c : Bool)
    (hgood : ∀ s ∈ segs, GoodSeg s) (hsne : segs ≠ [])
    (hdd : DDInv false segs) :
    normalizePath ('/' :: joinSep ['/'] segs) c = '/' :: joinSep ['/'] segs := by
  have hne_segs : ∀ s ∈ segs, s ≠ [] := fun s hs => (hgood s hs).1
  have hnos : ∀ s ∈ segs, '/' ∉ s := fun s hs => (hgood s hs).2.2
  have hrne : joinSep ['/'] segs ≠ [] := joinSep_ne_nil segs hsne hne_segs
  rw [show normalizePath ('/' :: joinSep ['/'] segs) c =
    collapseSlashes (stripTrailingSlash
      (posixNormalize ('/' :: joinSep ['/'] segs))) from rfl]
  rw [posixNormalize_fixed_abs segs hgood hsne hdd]
  have hgl : ('/' :: joinSep ['/'] segs).getLast? ≠ some '/' := by
    rw [show ('/' :: joinSep ['/'] segs) = ['/'] ++ joinSep ['/'] segs from rfl]
    rw [List.getLast?_append_of_ne_nil _ hrne]
    exact joinSep_getLast?_ne segs '/' hsne
      (fun s hs => ⟨hne_segs s hs, hnos s hs⟩)
  rw [stripTrailingSlash_no_op _ hgl]
  exact collapseSlashes_no_op _ (occursIn_ds_slash_cons _
    (joinSep_head?_ne_slash segs hsne (fun s hs => ⟨hne_segs s hs, hnos s hs⟩))
    (joinSep_no_ds segs (fun s hs => ⟨hne_segs s hs, hnos s hs⟩)))

theorem strip_collapse_abs (segs : List (List Char)) (tf : Bool)
    (hgood : ∀ s ∈ segs, GoodSeg s) (hsne : segs ≠ []) :
    collapseSlashes (stripTrailingSlash
      (('/' :: joinSep ['/'] segs) ++ (if tf then ['/'] else []))) =
    '/' :: joinSep ['/'] segs := by
  have hne_segs : ∀ s ∈ segs, s ≠ [] := fun s hs => (hgood s hs).1
  have hnos : ∀ s ∈ segs, '/' ∉ s := fun s hs => (hgood s hs).2.2
  have hrne : joinSep ['/'] segs ≠ [] := joinSep_ne_nil segs hsne hne_segs
  have hnods : occursIn (cs "//") ('/' :: joinSep ['/'] segs) = false :=
    occursIn_ds_slash_cons _
      (joinSep_head?_ne_slash segs hsne
        (fun s hs => ⟨hne_segs s hs, hnos s hs⟩))
      (joinSep_no_ds segs (fun s hs => ⟨hne_segs s hs, hnos s hs⟩))
  have hgl : ('/' :: joinSep ['/'] segs).getLast? ≠ some '/' := by
    rw [show ('/' :: joinSep ['/'] segs) = ['/'] ++ joinSep ['/'] segs from rfl]
    rw [List.getLast?_append_of_ne_nil _ hrne]
    exact joinSep_getLast?_ne segs '/' hsne
      (fun s hs => ⟨hne_segs s hs, hnos s hs⟩)
  cases tf with
  | true =>
    rw [if_pos rfl, stripTrailingSlash_concat]
    exact collapseSlashes_no_op _ hnods
  | false =>
    rw [if_neg (by simp), List.append_nil]
    rw [stripTrailingSlash_no_op _ hgl]
    exact collapseSlashes_no_op _ hnods

theorem strip_collapse_rel (segs : List (List Char)) (tf : Bool)
    (hgood : ∀ s ∈ segs, GoodSeg s) (hsne : segs ≠ []) :
    collapseSlashes (stripTrailingSlash
      (joinSep ['/'] segs ++ (if tf then ['/'] else []))) =
    joinSep ['/'] segs := by
  have hne_segs : ∀ s ∈ segs, s ≠ [] := fun s hs => (hgood s hs).1
  have hnos : ∀ s ∈ segs, '/' ∉ s := fun s hs => (hgood s hs).2.2
  have hnods : occursIn (cs "//") (joinSep ['/'] segs) = false :=
    joinSep_no_ds segs (fun s hs => ⟨hne_segs s hs, hnos s hs⟩)
  cases tf with
  | true =>
    rw [if_pos rfl, stripTrailingSlash_concat]
    exact collapseSlashes_no_op _ hnods
  | false =>
    rw [if_neg (by simp), List.append_nil]
    rw [stripTrailingSlash_no_op _
      (joinSep_getLast?_ne segs '/' hsne
        (fun s hs => ⟨hne_segs s hs, hnos s hs⟩))]
    exact collapseSlashes_no_op _ hnods

/-- C9 (counterexample): `normalizePath` is not idempotent on the root path.
`normalizePath "/"` strips the lone trailing slash and yields the empty
string, while normalizing the empty string yields `"."`. -/
theorem normalizePath_root_not_idem :
    normalizePath (cs "/") true = []
    ∧ normalizePath (normalizePath (cs "/") true) true = cs "."
    ∧ ([] : List Char) ≠ cs "." :=
  ⟨by decide, by decide, by decide⟩

/-- C9 (amended): `normalizePath` is idempotent, for each case-folding
setting (the flag is inactive on the modelled POSIX host), on every input
whose normal form is nonempty — i.e. on everything except paths normalizing
to the filesystem root, where `normalizePath "/" = ""` but
`normalizePath "" = "."` (see the counterexample). -/
theorem normalizePath_idem (p : List Char) (c : Bool)
    (hne : normalizePath p c ≠ []) :
    normalizePath (normalizePath p c) c = normalizePath p c := by
  by_cases hp : p = []
  · subst hp
    rw [show normalizePath ([] : List Char) c = cs "." from rfl]
    rfl
  have hinv := resolveSegs_inv (!(p.head? == some '/')) (splitSlash p)
    (splitSlash_no_slash p)
  have hqeq : posixNormalize p =
      (if joinSep ['/'] (resolveSegs (!(p.head? == some '/'))
          (splitSlash p)) = [] then
        (if (p.head? == some '/' : Bool) then ['/']
         else if (p.getLast? == some '/' : Bool) then cs "./" else cs ".")
      else
        ((if (p.head? == some '/' : Bool) then
            '/' :: joinSep ['/'] (resolveSegs (!(p.head? == some '/'))
              (splitSlash p))
          else joinSep ['/'] (resolveSegs (!(p.head? == some '/'))
            (splitSlash p))) ++
          (if (p.getLast? == some '/' : Bool) then ['/'] else []))) := by
    unfold posixNormalize
    rw [if_neg hp]
  have hnp : normalizePath p c =
      collapseSlashes (stripTrailingSlash (posixNormalize p)) := rfl
  cases habs : (p.head? == some '/' : Bool) with
  | true =>
    rw [habs] at hqeq hinv
    rw [if_pos (rfl : (true : Bool) = true),
      if_pos (rfl : (true : Bool) = true)] at hqeq
    simp only [Bool.not_true] at hqeq hinv
    by_cases hre : joinSep ['/'] (resolveSegs false (splitSlash p)) = []
    · rw [if_pos hre] at hqeq
      have hfp : normalizePath p c = [] := by
        rw [hnp, hqeq]
        rfl
      exact absurd hfp hne
    · rw [if_neg hre] at hqeq
      have hsne : resolveSegs false (splitSlash p) ≠ [] := by
        intro h0
        refine hre ?_
        rw [h0]
        rfl
      have hgood := hinv.1
      have hdd := hinv.2
      have hfp : normalizePath p c =
          '/' :: joinSep ['/'] (resolveSegs false (splitSlash p)) := by
        rw [hnp, hqeq]
        exact strip_collapse_abs _ _ hgood hsne
      rw [hfp]
      exact normalizePath_fixed_abs _ c hgood hsne hdd
  | false =>
    rw [habs] at hqeq hinv
    rw [if_neg (show ¬((false : Bool) = true) by simp),
      if_neg (show ¬((false : Bool) = true) by simp)] at hqeq
    simp only [Bool.not_false] at hqeq hinv
    by_cases hre : joinSep ['/'] (resolveSegs true (splitSlash p)) = []
    · rw [if_pos hre] at hqeq
      cases htr : (p.getLast? == some '/' : Bool) with
      | true =>
        rw [htr, if_pos (rfl : (true : Bool) = true)] at hqeq
        have hfp : normalizePath p c = cs "." := by
          rw [hnp, hqeq]
          rfl
        rw [hfp]
        rfl
      | false =>
        rw [htr, if_neg (show ¬((false : Bool) = true) by simp)] at hqeq
        have hfp : normalizePath p c = cs "." := by
          rw [hnp, hqeq]
          rfl
        rw [hfp]
        rfl
    · rw [if_neg hre] at hqeq
      have hsne : resolveSegs true (splitSlash p) ≠ [] := by
        intro h0
        refine hre ?_
        rw [h0]
        rfl
      have hgood := hinv.1
      have hdd := hinv.2
      have hfp : normalizePath p c =
          joinSep ['/'] (resolveSegs true (splitSlash p)) := by
        rw [hnp, hqeq]
        exact strip_collapse_rel _ _ hgood hsne
      rw [hfp]
      exact normalizePath_fixed_rel _ c hgood hsne hdd

/-- Witness for C9: the amended idempotence applied at a concrete path. -/
theorem normalizePath_idem_witness :
    normalizePath (normalizePath (cs "a//b/") true) true =
      normalizePath (cs "a//b/") true :=
  normalizePath_idem (cs "a//b/") true (by decide)

/-!
### Command-line tokenizer

The embedding of `splitCommandLine` from `util.ts`.  Its regex (single-quoted
span, double-quoted span, escaped-space/non-space run, word run — with the
`g` flag) is embedded as a backtracking matcher specialised to the four
alternatives: at each start position the alternatives are tried in order, a
star is greedy (more iterations preferred, with backtracking), and the global
scan takes the leftmost match and resumes after it.  Each piece matcher
returns the candidate (matched, rest) splits in the engine's preference
order; the engine's choice is the head.
-/

/-- Candidate matches of one quoted-body element: backslash-quote (two
characters) is preferred over any single non-quote character. -/
def elemQuote (q : Char) : List Char → List (List Char × List Char)
  | [] => []
  | c :: rest =>
    (if c = bslashC then
      match rest with
      | c2 :: rest2 => if c2 = q then [([c, c2], rest2)] else []
      | [] => []
    else []) ++
    (if c ≠ q then [([c], rest)] else [])

/-- Candidate matches of one unquoted-run element: backslash-space (two
characters) is preferred over any single non-space character. -/
def elemPlain : List Char → List (List Char × List Char)
  | [] => []
  | c :: rest =>
    (if c = bslashC then
      match rest with
      | c2 :: rest2 => if c2 = ' ' then [([c, c2], rest2)] else []
      | [] => []
    else []) ++
    (if c ≠ ' ' then [([c], rest)] else [])

/-- The word character class of the fourth alternative: ASCII letters,
digits, underscore, hyphen. -/
def isWordChar (c : Char) : Bool :=
  decide (('a' ≤ c ∧ c ≤ 'z') ∨ ('A' ≤ c ∧ c ≤ 'Z') ∨ ('0' ≤ c ∧ c ≤ '9')
    ∨ c = '_' ∨ c = '-')

/-- One word-class element. -/
def elemWord : List Char → List (List Char × List Char)
  | [] => []
  | c :: rest => if isWordChar c then [([c], rest)] else []

/-- Greedy star over an element matcher: all candidate (consumed, rest)
splits in backtracking preference order (more iterations first).  The fuel
bounds the iteration count; every element consumes at least one character
(empty element matches are discarded), so `length` always suffices. -/
def starM (e : List Char → List (List Char × List Char)) :
    Nat → List Char → List (List Char × List Char)
  | 0, s => [([], s)]
  | fuel + 1, s =>
    ((e s).map (fun m =>
      if m.1.isEmpty then []
      else (starM e fuel m.2).map (fun m2 => (m.1 ++ m2.1, m2.2)))).flatten
    ++ [([], s)]

/-- A quoted alternative: opening quote, greedy body, closing quote. -/
def altQuote (q : Char) (s : List Char) : List (List Char × List Char) :=
  match s with
  | [] => []
  | c :: rest =>
    if c = q then
      (starM (elemQuote q) rest.length rest).filterMap (fun m =>
        match m.2 with
        | c2 :: r2 => if c2 = q then some (q :: (m.1 ++ [q]), r2) else none
        | [] => none)
    else []

/-- A plus alternative: one element, then the greedy star. -/
def altPlus (e : List Char → List (List Char × List Char)) (s : List Char) :
    List (List Char × List Char) :=
  ((e s).map (fun m =>
    (starM e m.2.length m.2).map (fun m2 => (m.1 ++ m2.1, m2.2)))).flatten

/-- One regex match attempt at the current position: the four alternatives
in source order, first success wins. -/
def regexMatchAt (s : List Char) : Option (List Char × List Char) :=
  (altQuote squoteC s ++ altQuote dquoteC s ++ altPlus elemPlain s ++
    altPlus elemWord s).head?

/-- The `g`-flagged global scan of `cmd.match`: find the leftmost match, emit
it, resume after it.  Every match is nonempty, so `length` fuel suffices. -/
def scanAux : Nat → List Char → List (List Char)
  | 0, _ => []
  | _ + 1, [] => []
  | fuel + 1, c :: rest =>
    match regexMatchAt (c :: rest) with
    | some m => m.1 :: scanAux fuel m.2
    | none => scanAux fuel rest

/-- All regex matches of the token regex over the command string. -/
def scanTokens (cmd : List Char) : List (List Char) := scanAux cmd.length cmd

/-- The step `arg.replace(rgxEscapedQuote, quote)`: rewrite every backslash-quote pair
to a bare double quote, left to right. -/
def unescapeQuotes : List Char → List Char
  | [] => []
  | [c] => [c]
  | c :: c2 :: rest2 =>
    if c = bslashC ∧ c2 = dquoteC then dquoteC :: unescapeQuotes rest2
    else c :: unescapeQuotes (c2 :: rest2)

/-- The step `arg.replace(rgxOuterQuotes, inner)`: strip one layer of
surrounding DOUBLE quotes.  The pattern anchors on the double-quote
character only; its caret and dollar match the very start and very end of
the token (the ECMAScript dollar without the multiline flag matches only at
end of input); and the dot does not match a newline, so a token with an
embedded newline between the quotes is left unchanged. -/
def stripOuterQuotes (s : List Char) : List Char :=
  if 2 ≤ s.length ∧ s.head? = some dquoteC ∧ s.getLast? = some dquoteC
      ∧ newlineC ∉ (s.drop 1).dropLast then
    (s.drop 1).dropLast
  else s

/-- The failure mode of `splitCommandLine` when `cmd.match` returns `null`
(no matchable tokens): the `console.assert` logs without aborting and the
following null dereference throws synchronously; the embedding models that
thrown failure as the parse error. -/
inductive ParseFail where
  | noTokens
deriving DecidableEq

/-- The embedding of `splitCommandLine` from `util.ts`. -/
def splitCommandLine (cmd : List Char) : Except ParseFail (List (List Char)) :=
  match scanTokens cmd with
  | [] => .error .noTokens
  | ts => .ok (ts.map (fun arg => stripOuterQuotes (unescapeQuotes arg)))

/-- C7: `splitCommandLine` fails synchronously with the parse failure exactly
when the input contains no matchable tokens (the regex scan finds nothing —
e.g. the empty string, or a whitespace-only string), and succeeds with a
nonempty token sequence whenever the scan finds at least one token. -/
theorem splitCommandLine_error_spec :
    (∀ cmd, scanTokens cmd = [] → splitCommandLine cmd = .error .noTokens)
    ∧ (∀ cmd, scanTokens cmd ≠ [] →
        ∃ ts, splitCommandLine cmd = .ok ts ∧ ts ≠ [])
    ∧ splitCommandLine [] = .error .noTokens
    ∧ splitCommandLine (cs " ") = .error .noTokens
    ∧ splitCommandLine (cs "a") = .ok [cs "a"] := by
  refine ⟨?_, ?_, rfl, rfl, rfl⟩
  · intro cmd h
    simp [splitCommandLine, h]
  · intro cmd h
    rcases hts : scanTokens cmd with _ | ⟨t, ts'⟩
    · exact absurd hts h
    · refine ⟨(t :: ts').map (fun arg => stripOuterQuotes (unescapeQuotes arg)),
        ?_, by simp⟩
      simp [splitCommandLine, hts]

/-- Witness for C7: the two error-dispatch conjuncts applied at concrete
inputs. -/
theorem splitCommandLine_error_spec_witness :
    splitCommandLine (cs "  ") = .error .noTokens
    ∧ ∃ ts, splitCommandLine (cs "x y") = .ok ts ∧ ts ≠ [] :=
  ⟨splitCommandLine_error_spec.1 (cs "  ") (by decide),
   splitCommandLine_error_spec.2.1 (cs "x y") (by decide)⟩

/-- C3 (counterexample): `splitCommandLine` does not strip surrounding
single quotes: the post-processing regex anchors on double quotes only, so
a single-quoted token keeps its quotes. -/
theorem splitCommandLine_single_quote_kept :
    splitCommandLine [squoteC, 'a', 'b', squoteC] =
      .ok [[squoteC, 'a', 'b', squoteC]]
    ∧ [squoteC, 'a', 'b', squoteC] ≠ cs "ab" :=
  ⟨rfl, by decide⟩

/-- C3 (amended): `splitCommandLine` treats single- and double-quoted spans
as atomic tokens and unescapes backslash-double-quote within each token's
final text, but strips one layer of surrounding quotes from double-quoted
tokens only; single-quoted tokens keep their surrounding quotes.  In
particular the spec's two examples hold, and a single-quoted span stays
quoted. -/
theorem splitCommandLine_spec :
    splitCommandLine (cs "build --target " ++ [dquoteC] ++ cs "My App"
        ++ [dquoteC] ++ cs " -j4") =
      .ok [cs "build", cs "--target", cs "My App", cs "-j4"]
    ∧ splitCommandLine (cs "echo " ++ [dquoteC] ++ cs "say "
        ++ [bslashC, dquoteC] ++ cs "hi" ++ [bslashC, dquoteC, dquoteC]) =
      .ok [cs "echo", cs "say " ++ [dquoteC] ++ cs "hi" ++ [dquoteC]]
    ∧ splitCommandLine (cs "echo " ++ [squoteC] ++ cs "a b" ++ [squoteC]) =
      .ok [cs "echo", [squoteC] ++ cs "a b" ++ [squoteC]] :=
  ⟨rfl, rfl, rfl⟩

/-!
### Process tree terminator

The embedding of `termProc`/`_killTree` from `util.ts` on a POSIX host.  The
live process table queried via `pgrep -P` is modelled as a snapshot tree of
process identifiers (the spec's ephemeral ProcessTree); `process.kill(pid,
SIGINT)` is modelled by an outcome function: success, ESRCH (no such
process — caught and treated as success), or another error (rethrown, the
error carrying the offending pid).  `_killTree` recurses into every child
discovered by `pgrep` (the `if (other)` guard skips falsy pids, i.e. 0)
before signalling the current node; a successful run returns the pids in the
order their kill calls happen.
-/

mutual
inductive ProcTree where
  | node (pid : Nat) (children : ProcForest)
inductive ProcForest where
  | nil
  | cons (t : ProcTree) (ts : ProcForest)
end

/-- The identifier at the root of a subtree. -/
def ProcTree.rootPid : ProcTree → Nat
  | .node pid _ => pid

/-- The outcome of one `process.kill` call. -/
inductive KillOutcome where
  | ok
  | esrch
  | err
deriving DecidableEq

mutual
/-- The embedding of `_killTree` (POSIX branch): signal every discovered
child subtree depth-first, then the current pid; ESRCH is swallowed, any
other failure propagates. -/
def killTree (kr : Nat → KillOutcome) : ProcTree → Except Nat (List Nat)
  | .node pid children =>
    match killForest kr children with
    | .error e => .error e
    | .ok tr =>
      match kr pid with
      | .err => .error pid
      | _ => .ok (tr ++ [pid])
/-- The `for (const other of children)` loop of `_killTree`; the
`if (other)` guard skips pid 0. -/
def killForest (kr : Nat → KillOutcome) : ProcForest → Except Nat (List Nat)
  | .nil => .ok []
  | .cons t ts =>
    if t.rootPid = 0 then killForest kr ts
    else
      match killTree kr t with
      | .error e => .error e
      | .ok tr1 =>
        match killForest kr ts with
        | .error e => .error e
        | .ok tr2 => .ok (tr1 ++ tr2)
end

mutual
/-- Post-order pid list of a subtree (descendants first, root last). -/
def ProcTree.pids : ProcTree → List Nat
  | .node pid children => ProcForest.pids children ++ [pid]
def ProcForest.pids : ProcForest → List Nat
  | .nil => []
  | .cons t ts => t.pids ++ ProcForest.pids ts
end

/-- The pids of the proper descendants of a subtree. -/
def ProcTree.descPids : ProcTree → List Nat
  | .node _ children => ProcForest.pids children

mutual
/-- All subtrees of a tree, itself included. -/
def subtreesT : ProcTree → List ProcTree
  | .node pid children => .node pid children :: subtreesF children
def subtreesF : ProcForest → List ProcTree
  | .nil => []
  | .cons t ts => subtreesT t ++ subtreesF ts
end

theorem ProcTree.rootPid_mem_pids (t : ProcTree) : t.rootPid ∈ t.pids := by
  cases t with
  | node pid children =>
    simp only [ProcTree.rootPid, ProcTree.pids]
    exact List.mem_append_right _ (List.mem_singleton.mpr rfl)

theorem ProcTree.pids_eq_desc (s : ProcTree) :
    s.pids = s.descPids ++ [s.rootPid] := by
  cases s with
  | node pid children => rfl

theorem killTree_trace :
    ∀ t : ProcTree, ∀ kr tr, (∀ q ∈ t.pids, q ≠ 0) →
      killTree kr t = .ok tr → tr = t.pids :=
  @ProcTree.rec
    (fun t => ∀ kr tr, (∀ q ∈ t.pids, q ≠ 0) →
      killTree kr t = .ok tr → tr = t.pids)
    (fun f => ∀ kr tr, (∀ q ∈ f.pids, q ≠ 0) →
      killForest kr f = .ok tr → tr = f.pids)
    (fun pid children ih => by
      intro kr tr h0 h
      simp only [killTree] at h
      rcases hf : killForest kr children with e | tr0
      · rw [hf] at h
        simp at h
      · rw [hf] at h
        have h0f : ∀ q ∈ ProcForest.pids children, q ≠ 0 := fun q hq =>
          h0 q (by
            simp only [ProcTree.pids]
            exact List.mem_append_left _ hq)
        have htr0 := ih kr tr0 h0f hf
        rcases hk : kr pid with _ | _ | _
        · rw [hk] at h
          simp at h
          rw [← h, htr0]
          rfl
        · rw [hk] at h
          simp at h
          rw [← h, htr0]
          rfl
        · rw [hk] at h
          simp at h)
    (fun kr tr _ h => by
      simp only [killForest] at h
      have h' : ([] : List Nat) = tr := Except.ok.inj h
      rw [← h']
      rfl)
    (fun t ts iht ihts => by
      intro kr tr h0 h
      simp only [killForest] at h
      by_cases hz : t.rootPid = 0
      · refine absurd hz (h0 t.rootPid ?_)
        simp only [ProcForest.pids]
        exact List.mem_append_left _ t.rootPid_mem_pids
      · rw [if_neg hz] at h
        rcases h1 : killTree kr t with e | tr1
        · rw [h1] at h
          simp at h
        · rw [h1] at h
          rcases h2 : killForest kr ts with e | tr2
          · rw [h2] at h
            simp at h
          · rw [h2] at h
            have h01 : ∀ q ∈ t.pids, q ≠ 0 := fun q hq =>
              h0 q (by
                simp only [ProcForest.pids]
                exact List.mem_append_left _ hq)
            have h02 : ∀ q ∈ ProcForest.pids ts, q ≠ 0 := fun q hq =>
              h0 q (by
                simp only [ProcForest.pids]
                exact List.mem_append_right _ hq)
            have h' : tr1 ++ tr2 = tr := Except.ok.inj h
            rw [← h', iht kr tr1 h01 h1, ihts kr tr2 h02 h2]
            rfl)

theorem subtree_pids_infix :
    ∀ t : ProcTree, ∀ s ∈ subtreesT t, ∃ u v, t.pids = u ++ s.pids ++ v :=
  @ProcTree.rec
    (fun t => ∀ s ∈ subtreesT t, ∃ u v, t.pids = u ++ s.pids ++ v)
    (fun f => ∀ s ∈ subtreesF f, ∃ u v, f.pids = u ++ s.pids ++ v)
    (fun pid children ih => by
      intro s hs
      simp only [subtreesT] at hs
      rcases List.mem_cons.mp hs with rfl | hs
      · exact ⟨[], [], by simp⟩
      · obtain ⟨u, v, huv⟩ := ih s hs
        refine ⟨u, v ++ [pid], ?_⟩
        simp only [ProcTree.pids, huv]
        simp [List.append_assoc])
    (fun s hs => absurd hs (List.not_mem_nil s))
    (fun t ts iht ihts => by
      intro s hs
      simp only [subtreesF] at hs
      rcases List.mem_append.mp hs with hs | hs
      · obtain ⟨u, v, huv⟩ := iht s hs
        refine ⟨u, v ++ ProcForest.pids ts, ?_⟩
        simp only [ProcForest.pids, huv]
        simp [List.append_assoc]
      · obtain ⟨u, v, huv⟩ := ihts s hs
        refine ⟨t.pids ++ u, v, ?_⟩
        simp only [ProcForest.pids, huv]
        simp [List.append_assoc])

/-- C1: on the POSIX path, `_killTree` discovers the direct children of each
node via `pgrep` and recurses into every child subtree before signalling the
node itself, so on a successful run the kill-call trace lists, for every
subtree of the snapshot, all of that subtree's descendants contiguously and
strictly before the subtree's own pid; and killing a process identifier that
no longer exists (ESRCH, with no children found) returns success rather than
surfacing an error. -/
theorem killTree_spec :
    (∀ (kr : Nat → KillOutcome) (t : ProcTree) (tr : List Nat),
      (∀ q ∈ t.pids, q ≠ 0) → killTree kr t = .ok tr →
      ∀ s ∈ subtreesT t, ∃ u v, tr = u ++ (s.descPids ++ [s.rootPid]) ++ v)
    ∧ (∀ (pid : Nat) (kr : Nat → KillOutcome), kr pid = .esrch →
        killTree kr (.node pid .nil) = .ok [pid]) := by
  constructor
  · intro kr t tr h0 h s hs
    rw [killTree_trace t kr tr h0 h]
    obtain ⟨u, v, huv⟩ := subtree_pids_infix t s hs
    rw [← ProcTree.pids_eq_desc s]
    exact ⟨u, v, huv⟩
  · intro pid kr hk
    simp [killTree, killForest, hk]

/-- A sample snapshot: one parent with two children. -/
def sampleTree : ProcTree :=
  .node 1 (.cons (.node 2 .nil) (.cons (.node 3 .nil) .nil))

/-- Witness for C1: the ordering conjunct applied to a parent with two
children (the trace is `[2, 3, 1]`: both children before the parent), and
the ESRCH conjunct applied to a vanished pid. -/
theorem killTree_spec_witness :
    (∃ u v, ([2, 3, 1] : List Nat) =
      u ++ (sampleTree.descPids ++ [sampleTree.rootPid]) ++ v)
    ∧ killTree (fun _ => .esrch) (.node 5 .nil) = .ok [5] :=
  ⟨killTree_spec.1 (fun _ => .ok) sampleTree [2, 3, 1] (by decide) rfl
      sampleTree (List.mem_cons_self _ _),
   killTree_spec.2 5 (fun _ => .esrch) rfl⟩

end VSCMakeUtil
